import Mathlib

set_option autoImplicit false

namespace RatatuiKit

/-!
Verification of the ratatui-kit-principle core runtime against its
specification.  The Rust sources are shallowly embedded: each structure
below mirrors one Rust struct, each function one Rust method.  Machine
pointers and allocator identities are modelled as `Nat` identifiers,
type-erased `TypeId`s as `Nat` tags, wakers as `Nat` handles.
-/

/-!
## Keyed multimap (src/multimap.rs)

`AppendOnlyMultimap`/`RemoveOnlyMultimap` share the same representation
(`From` merely moves the fields), so one Lean structure carries both.
`items : Vec<Option<V>>` stores every pushed value; `m : HashMap<K,
VecDeque<usize>>` maps a key to the queue of indices pushed under it.
The hash map is modelled as a total function `K → List Nat`; an absent
key and a present-but-empty deque both behave as `[]` in `pop_front`,
exactly as in the source.
-/

structure Multimap (K V : Type) where
  items : List (Option V)
  m : K → List Nat

variable {K V : Type} [DecidableEq K]

def Multimap.empty : Multimap K V := ⟨[], fun _ => []⟩

/-- `AppendOnlyMultimap::push_back`: store the value at the next free
index and append that index to the key's deque. -/
def Multimap.pushBack (mm : Multimap K V) (key : K) (v : V) : Multimap K V :=
  { items := mm.items ++ [some v]
    m := fun k => if k = key then mm.m key ++ [mm.items.length] else mm.m k }

/-- `RemoveOnlyMultimap::pop_front`: take the first index queued under
`key` (if any) and move the stored value out of `items` (leaving
`None`).  `items[index].take()` is modelled by `getD`/`set`. -/
def Multimap.popFront (mm : Multimap K V) (key : K) : Option V × Multimap K V :=
  match mm.m key with
  | [] => (none, mm)
  | index :: rest =>
      (mm.items.getD index none,
       { items := mm.items.set index none
         m := fun k => if k = key then rest else mm.m k })

/-- `RemoveOnlyMultimap::iter`: the not-yet-consumed values in insertion
order. -/
def Multimap.itemsList (mm : Multimap K V) : List V :=
  mm.items.filterMap id

/-- Abstraction: the FIFO queue of unconsumed values currently stored
under a key. -/
def Multimap.toQueue (mm : Multimap K V) (k : K) : List V :=
  (mm.m k).filterMap (fun i => mm.items.getD i none)

/-- Every collection the program ever reconciles against is built by a
sequence of `push_back`s from the empty map. -/
def Multimap.build (ops : List (K × V)) : Multimap K V :=
  ops.foldl (fun mm p => mm.pushBack p.1 p.2) Multimap.empty

/-- Run a sequence of `pop_front`s, collecting the returned values. -/
def Multimap.runPops (mm : Multimap K V) : List K → List (Option V) × Multimap K V
  | [] => ([], mm)
  | k :: ks =>
      (((mm.popFront k).1 :: ((mm.popFront k).2.runPops ks).1),
       ((mm.popFront k).2.runPops ks).2)

/-!
### Specification-level model: per-key FIFO queues
-/

/-- The queue of values pushed under `k`, in push order. -/
def specQueues : List (K × V) → K → List V
  | [], _ => []
  | p :: rest, k => if p.1 = k then p.2 :: specQueues rest k else specQueues rest k

/-- Spec-level pop: head of the key's queue; the queue loses its head. -/
def specPop (q : K → List V) (k : K) : Option V × (K → List V) :=
  ((q k).head?, fun k' => if k' = k then (q k).tail else q k')

def specRun (q : K → List V) : List K → List (Option V) × (K → List V)
  | [] => ([], q)
  | k :: ks =>
      (((specPop q k).1 :: (specRun (specPop q k).2 ks).1),
       (specRun (specPop q k).2 ks).2)

/-!
### List helper lemmas
-/

/-!
### Multimap invariant

All invariant clauses hold for every map built by pushes (and are
preserved by pops); they let the concrete index juggling be abstracted
to per-key queues.
-/

structure Multimap.Inv (mm : Multimap K V) : Prop where
  bounded : ∀ k i, i ∈ mm.m k → i < mm.items.length
  filled : ∀ k i, i ∈ mm.m k → (mm.items.getD i none).isSome = true
  nodupIdx : ∀ k, (mm.m k).Nodup
  disjointIdx : ∀ k₁ k₂ i, k₁ ≠ k₂ → i ∈ mm.m k₁ → i ∉ mm.m k₂

/-!
## Reconciliation (src/render/updater.rs `ComponentUpdater::update_children`)

Element descriptors (`AnyElement`) carry a key, the factory's
`component_type_id()` and props; instances (`InstantiatedComponent`)
additionally carry an identity `iid` drawn fresh at
`InstantiatedComponent::new` (so "same instance" is "same iid") and a
`state` field abstracting the component state and hook slots, which
`update` keeps while replacing the props.
-/

structure AnyElement where
  key : Nat
  typeId : Nat
  props : Nat
  deriving DecidableEq

structure InstantiatedComponent where
  key : Nat
  typeId : Nat
  iid : Nat
  state : Nat
  props : Nat
  deriving DecidableEq

/-- `InstantiatedComponent::new(key, props, helper.copy())`: fresh
identity `n`, fresh (zero) state, the descriptor's key/type/props. -/
def InstantiatedComponent.create (e : AnyElement) (n : Nat) : InstantiatedComponent :=
  { key := e.key, typeId := e.typeId, iid := n, state := 0, props := e.props }

/-- `component.update(props, ...)`: identity and accumulated state are
kept, the props are replaced. -/
def InstantiatedComponent.updateProps (c : InstantiatedComponent) (p : Nat) :
    InstantiatedComponent :=
  { c with props := p }

/-- The descriptor loop of `update_children`: pop the first unconsumed
old instance under the descriptor's key; reuse it when its
`component().type_id()` equals the descriptor's
`helper().component_type_id()`, otherwise create a fresh instance (the
popped mismatch is discarded); update with the descriptor's props and
append under the descriptor's key.  `n` threads the fresh-identity
counter. -/
def updateChildrenGo : List AnyElement → Multimap Nat InstantiatedComponent →
    Multimap Nat InstantiatedComponent → Nat →
    Multimap Nat InstantiatedComponent × Nat
  | [], _, acc, n => (acc, n)
  | child :: rest, old, acc, n =>
      let popped := (old.popFront child.key).1
      let old' := (old.popFront child.key).2
      let c := match popped with
        | some comp =>
            if comp.typeId = child.typeId then (comp, n)
            else (InstantiatedComponent.create child n, n + 1)
        | none => (InstantiatedComponent.create child n, n + 1)
      updateChildrenGo rest old'
        (acc.pushBack child.key (c.1.updateProps child.props)) c.2

/-- `ComponentUpdater::update_children`: run the loop against the old
collection starting from a fresh `AppendOnlyMultimap`; the result
wholesale replaces the old collection. -/
def update_children (children : List AnyElement)
    (old : Multimap Nat InstantiatedComponent) (n : Nat) :
    Multimap Nat InstantiatedComponent × Nat :=
  updateChildrenGo children old Multimap.empty n

/-- Specification side of the refinement, following the spec's §4.2
wording: reconcile descriptors in order against per-key FIFO queues of
old instances, reusing exactly on key+type match. -/
def reconcileSpec : List AnyElement → (Nat → List InstantiatedComponent) → Nat →
    List (Nat × InstantiatedComponent) × Nat
  | [], _, n => ([], n)
  | child :: rest, q, n =>
      let popped := (specPop q child.key).1
      let q' := (specPop q child.key).2
      let c := match popped with
        | some comp =>
            if comp.typeId = child.typeId then (comp, n)
            else (InstantiatedComponent.create child n, n + 1)
        | none => (InstantiatedComponent.create child n, n + 1)
      ((child.key, c.1.updateProps child.props) :: (reconcileSpec rest q' c.2).1,
       (reconcileSpec rest q' c.2).2)

/-!
## Positional hooks (src/hooks/mod.rs)

Hook slots are type-erased `Box<dyn AnyHook>` values: the dynamic type
is a `tag`, the payload a `val`.  `downcast_mut::<H>` succeeds exactly
when the stored tag equals the expected one, and the source's
`.expect(...)` is an `Except.error` carrying the panic message.
-/

structure HookSlot where
  tag : Nat
  val : Nat
  deriving DecidableEq

structure HooksState where
  hooks : List HookSlot
  first_update : Bool
  hook_index : Nat
  deriving DecidableEq

/-- `Hooks::new`: wrap the slot list; the cursor starts at zero. -/
def Hooks.new (hooks : List HookSlot) (first_update : Bool) : HooksState :=
  { hooks := hooks, first_update := first_update, hook_index := 0 }

/-- `Hooks::use_hook`: on the first update push `f()`'s result, then
select the slot at the cursor, advance the cursor, and downcast. -/
def use_hook (h : HooksState) (tag : Nat) (init : Nat) :
    Except String (Nat × HooksState) :=
  let hooks := if h.first_update then h.hooks ++ [⟨tag, init⟩] else h.hooks
  let idx := h.hook_index
  let h' : HooksState :=
    { hooks := hooks, first_update := h.first_update, hook_index := idx + 1 }
  match hooks[idx]? with
  | some slot =>
      if slot.tag = tag then .ok (slot.val, h')
      else .error "Hook type mismatch, ensure the hook is of the correct type"
  | none => .error "Hook type mismatch, ensure the hook is of the correct type"

/-!
## State cells (src/hooks/use_state.rs)

`StateValue` holds the value, the registered waker and the dirty flag;
wakers are opaque handles and waking is modelled by returning the woken
handles.  The payload type is fixed to `Nat`.
-/

structure StateValue where
  value : Nat
  waker : Option Nat
  is_changed : Bool
  deriving DecidableEq

/-- `UseStateImpl::poll_change`.  `locked = true` models a failing
`try_write` (the cell is concurrently borrowed): the source then
returns `Pending` without touching the cell. -/
def poll_change (locked : Bool) (sv : StateValue) (w : Nat) : Bool × StateValue :=
  if locked then (false, sv)
  else if sv.is_changed then (true, { sv with is_changed := false })
  else (false, { sv with waker := some w })

/-- `StateMutRef`: a live mutable view of the cell plus the
`is_deref_mut` flag recording whether `DerefMut` ever fired. -/
structure StateMutRef where
  inner : StateValue
  is_deref_mut : Bool

/-- Successful `State::try_write`: wrap the cell, no mutable deref yet. -/
def mkMutRef (sv : StateValue) : StateMutRef := ⟨sv, false⟩

/-- One interaction with the view during its lifetime: `none` is a
read-only `Deref`; `some f` is a `DerefMut` access mutating the value
through the returned reference. -/
def applyAccess (r : StateMutRef) : Option (Nat → Nat) → StateMutRef
  | none => r
  | some f => ⟨{ r.inner with value := f r.inner.value }, true⟩

def applyAccesses (r : StateMutRef) (ops : List (Option (Nat → Nat))) : StateMutRef :=
  ops.foldl applyAccess r

/-- `Drop for StateMutRef`: if a mutable deref happened, set the dirty
flag and take-and-wake the waker; the second component lists the woken
handles. -/
def dropMutRef (r : StateMutRef) : StateValue × List Nat :=
  if r.is_deref_mut then
    ({ r.inner with is_changed := true, waker := none }, r.inner.waker.toList)
  else (r.inner, [])

def hasWrite (ops : List (Option (Nat → Nat))) : Bool :=
  ops.any Option.isSome

/-!
## Context stack (src/context.rs)

`Context` entries carry a type tag and a value: `ref` is a shared
borrow, `mut` an exclusive borrow, `owned` a boxed value.  The stack is
kept top-first (the source pushes at the end of a `Vec` and scans with
`iter().rev()`); `RefCell::try_borrow_mut` always succeeds in the
single-task update model, since no entry is borrowed while scanning.
-/

inductive Context where
  | Ref (tag : Nat) (val : Nat)
  | Mut (tag : Nat) (val : Nat)
  | Owned (tag : Nat) (val : Nat)
  deriving DecidableEq

def Context.tag : Context → Nat
  | .Ref t _ => t
  | .Mut t _ => t
  | .Owned t _ => t

def Context.val : Context → Nat
  | .Ref _ v => v
  | .Mut _ v => v
  | .Owned _ v => v

/-- `Context::downcast_ref::<T>`: all three variants downcast. -/
def Context.downcast_ref (c : Context) (tag : Nat) : Option Nat :=
  match c with
  | .Ref t v => if t = tag then some v else none
  | .Mut t v => if t = tag then some v else none
  | .Owned t v => if t = tag then some v else none

/-- `Context::downcast_mut::<T>`: a `Ref` entry never yields a mutable
borrow. -/
def Context.downcast_mut (c : Context) (tag : Nat) : Option Nat :=
  match c with
  | .Ref _ _ => none
  | .Mut t v => if t = tag then some v else none
  | .Owned t v => if t = tag then some v else none

/-- `ContextStack::get_context`: scan top-to-bottom, return the first
entry that downcasts read-only. -/
def get_context (stack : List Context) (tag : Nat) : Option Nat :=
  match stack with
  | [] => none
  | c :: rest =>
      match c.downcast_ref tag with
      | some v => some v
      | none => get_context rest tag

/-- `ContextStack::get_context_mut`: scan top-to-bottom, return the
first entry that downcasts mutably (a failing `filter_map` continues
the loop). -/
def get_context_mut (stack : List Context) (tag : Nat) : Option Nat :=
  match stack with
  | [] => none
  | c :: rest =>
      match c.downcast_mut tag with
      | some v => some v
      | none => get_context_mut rest tag

/-- Whether an entry both matches the type and can be borrowed mutably. -/
def Context.mutMatches (c : Context) (tag : Nat) : Bool :=
  match c with
  | .Ref _ _ => false
  | .Mut t _ => t = tag
  | .Owned t _ => t = tag

/-- `ContextStack::with_context`: push the supplied entry, run the
body, pop.  The body receives the extended stack and returns the stack
it leaves behind plus whether it exited abruptly (panicked); the
pop after the body is only reached on normal exit, as in the source
(no scope guard). -/
def with_context (stack : List Context) (ctx : Option Context)
    (f : List Context → List Context × Bool) : List Context × Bool :=
  match ctx with
  | some c =>
      let r := f (c :: stack)
      if r.2 then r else (r.1.tail, false)
  | none => f stack

/-!
## Type-erased property carrier (src/props.rs)

The erased pointer `raw` is an allocation identifier; the
`drop: Option<Box<dyn DropRaw>>` field collapses to whether this
carrier releases the allocation when dropped.  Dropping a carrier
yields the list of allocations it releases.
-/

structure AnyProps where
  raw : Nat
  drop : Bool
  deriving DecidableEq

/-- `AnyProps::owned`: boxes the value (the fresh allocation id is the
argument) and installs the releasing `DropRawImpl`. -/
def AnyProps.owned (allocId : Nat) : AnyProps := ⟨allocId, true⟩

/-- `AnyProps::borrowed(&mut value)`: aliases the given allocation,
never releases. -/
def AnyProps.borrowed (allocId : Nat) : AnyProps := ⟨allocId, false⟩

/-- `AnyProps::borrow`: re-borrow sharing the same raw pointer, `drop`
set to `None`. -/
def AnyProps.borrow (p : AnyProps) : AnyProps := ⟨p.raw, false⟩

/-- `Drop for AnyProps`: release the allocation iff the releasing
capability is present. -/
def AnyProps.dropCarrier (p : AnyProps) : List Nat :=
  if p.drop then [p.raw] else []

/-!
## Event multiplexer and wait loop (src/terminal.rs)

Subscriber queues (`Arc<Mutex<TerminalEventsInner>>`) live in an arena
`heap`; index = allocation, `none` = the strong owner (the
`TerminalEvents` handle) has been dropped so only the multiplexer's
`Weak` remains.  `subscribers` holds the weak references as indices.
Wakers are opaque handles; waking is modelled by returning the woken
handles.
-/

structure KeyModifiers where
  ctrl : Bool
  alt : Bool
  shift : Bool
  deriving DecidableEq

inductive KeyCode where
  | char (c : Char)
  | other (code : Nat)
  deriving DecidableEq

inductive Event where
  | key (code : KeyCode) (modifiers : KeyModifiers)
  | resize (w h : Nat)
  | other (id : Nat)
  deriving DecidableEq

structure TerminalEventsInner where
  pending : List Event
  waker : Option Nat
  deriving DecidableEq

structure Terminal where
  heap : List (Option TerminalEventsInner)
  subscribers : List Nat
  received_ctrl_c : Bool
  deriving DecidableEq

/-- `Terminal::events`: allocate a fresh empty queue and append its
weak reference to the subscriber list; returns the new handle. -/
def Terminal.events (t : Terminal) : Nat × Terminal :=
  (t.heap.length,
   { t with
      heap := t.heap ++ [some ⟨[], none⟩]
      subscribers := t.subscribers ++ [t.heap.length] })

/-- Dropping a subscriber's strong owner: the arena slot dies; the
multiplexer's subscriber list is untouched (pruning is lazy). -/
def Terminal.dropOwner (t : Terminal) (i : Nat) : Terminal :=
  { t with heap := t.heap.set i none }

/-- The `retain` walk of `Terminal::wait`'s dispatch: a live subscriber
gets the event appended and its waker taken and woken, and is kept; a
dead weak reference is removed.  Returns (new heap, kept subscriber
list, woken wakers in walk order). -/
def retainWalk (e : Event) :
    List (Option TerminalEventsInner) → List Nat →
    List (Option TerminalEventsInner) × List Nat × List Nat
  | heap, [] => (heap, [], [])
  | heap, idx :: rest =>
      match heap.getD idx none with
      | some q =>
          let heap' := heap.set idx (some ⟨q.pending ++ [e], none⟩)
          let r := retainWalk e heap' rest
          (r.1, idx :: r.2.1, q.waker.toList ++ r.2.2)
      | none =>
          retainWalk e heap rest

/-- One event delivery of `Terminal::wait`'s subscriber loop. -/
def Terminal.dispatch (t : Terminal) (e : Event) : Terminal × List Nat :=
  let r := retainWalk e t.heap t.subscribers
  ({ t with heap := r.1, subscribers := r.2.1 }, r.2.2)

def Terminal.dispatchAll (t : Terminal) : List Event → Terminal
  | [] => t
  | e :: es => Terminal.dispatchAll (t.dispatch e).1 es

/-- The Ctrl+C check of `Terminal::wait`: a key event whose code is
`Char('c')` with the CONTROL modifier held. -/
def isCtrlC (e : Event) : Bool :=
  match e with
  | .key (.char c) mods => c = 'c' && mods.ctrl
  | _ => false

/-- `Terminal::wait`: read events from the stream until it ends or
yields an error (`while let Some(Ok(event))`); a Ctrl+C sets the flag
and returns immediately; every other event is dispatched. -/
def Terminal.wait (t : Terminal) : List (Except Unit Event) → Terminal
  | [] => t
  | .error _ :: _ => t
  | .ok e :: rest =>
      if isCtrlC e then { t with received_ctrl_c := true }
      else Terminal.wait (t.dispatch e).1 rest

/-- Whether the stream contains a Ctrl+C before its end or first read
error. -/
def hasCtrlC : List (Except Unit Event) → Bool
  | [] => false
  | .error _ :: _ => false
  | .ok e :: rest => isCtrlC e || hasCtrlC rest

theorem getD_append_left {α : Type} (l l' : List α) (i : Nat) (d : α)
    (h : i < l.length) : (l ++ l').getD i d = l.getD i d := by
  induction l generalizing i with
  | nil => simp at h
  | cons a t ih =>
    cases i with
    | zero => rfl
    | succ j =>
      simp only [List.cons_append, List.getD_cons_succ]
      exact ih j (by simpa using Nat.lt_of_succ_lt_succ h)

theorem getD_append_self {α : Type} (l : List α) (a d : α) :
    (l ++ [a]).getD l.length d = a := by
  induction l with
  | nil => rfl
  | cons b t ih =>
    simp only [List.cons_append, List.length_cons, List.getD_cons_succ]
    exact ih

theorem getD_set_ne {α : Type} (l : List α) (i j : Nat) (a d : α)
    (h : j ≠ i) : (l.set i a).getD j d = l.getD j d := by
  induction l generalizing i j with
  | nil => rfl
  | cons b t ih =>
    cases i with
    | zero =>
      cases j with
      | zero => exact absurd rfl h
      | succ j' => rfl
    | succ i' =>
      cases j with
      | zero => rfl
      | succ j' =>
        simp only [List.set_cons_succ, List.getD_cons_succ]
        exact ih i' j' (fun hh => h (by rw [hh]))

theorem inv_empty : (Multimap.empty : Multimap K V).Inv := by
  constructor <;> intro k <;> simp [Multimap.empty]

theorem toQueue_pushBack (mm : Multimap K V) (key : K) (v : V)
    (hb : ∀ k i, i ∈ mm.m k → i < mm.items.length) (k : K) :
    (mm.pushBack key v).toQueue k =
      if k = key then mm.toQueue k ++ [v] else mm.toQueue k := by
  have e2 : (mm.pushBack key v).items = mm.items ++ [some v] := rfl
  by_cases h : k = key
  · subst h
    have e1 : (mm.pushBack k v).m k = mm.m k ++ [mm.items.length] := by
      simp [Multimap.pushBack]
    rw [if_pos rfl]
    unfold Multimap.toQueue
    rw [e1, e2, List.filterMap_append]
    congr 1
    · exact List.filterMap_congr fun i hi => by
        rw [getD_append_left _ _ _ _ (hb _ _ hi)]
    · simp [getD_append_self]
  · have e1 : (mm.pushBack key v).m k = mm.m k := by
      simp [Multimap.pushBack, h]
    rw [if_neg h]
    unfold Multimap.toQueue
    rw [e1, e2]
    exact List.filterMap_congr fun i hi => by
      rw [getD_append_left _ _ _ _ (hb _ _ hi)]

theorem inv_pushBack (mm : Multimap K V) (key : K) (v : V) (h : mm.Inv) :
    (mm.pushBack key v).Inv := by
  have hlen : (mm.pushBack key v).items.length = mm.items.length + 1 := by
    simp [Multimap.pushBack]
  constructor
  · intro k i hi
    rw [hlen]
    simp only [Multimap.pushBack] at hi
    by_cases hk : k = key
    · rw [if_pos hk] at hi
      rcases List.mem_append.1 hi with h1 | h2
      · exact Nat.lt_succ_of_lt (h.bounded _ _ h1)
      · simp at h2; omega
    · rw [if_neg hk] at hi
      exact Nat.lt_succ_of_lt (h.bounded _ _ hi)
  · intro k i hi
    simp only [Multimap.pushBack] at hi ⊢
    by_cases hk : k = key
    · rw [if_pos hk] at hi
      rcases List.mem_append.1 hi with h1 | h2
      · rw [getD_append_left _ _ _ _ (h.bounded _ _ h1)]
        exact h.filled _ _ h1
      · simp at h2
        rw [h2, getD_append_self]
        rfl
    · rw [if_neg hk] at hi
      rw [getD_append_left _ _ _ _ (h.bounded _ _ hi)]
      exact h.filled _ _ hi
  · intro k
    simp only [Multimap.pushBack]
    by_cases hk : k = key
    · rw [if_pos hk]
      refine List.Nodup.append (h.nodupIdx key) (List.nodup_singleton _) ?_
      intro i hi hj
      simp at hj
      exact absurd (h.bounded _ _ hi) (by omega)
    · rw [if_neg hk]; exact h.nodupIdx k
  · intro k₁ k₂ i hne h1 h2
    simp only [Multimap.pushBack] at h1 h2
    by_cases hk1 : k₁ = key <;> by_cases hk2 : k₂ = key
    · exact hne (hk1.trans hk2.symm)
    · rw [if_pos hk1] at h1
      rw [if_neg hk2] at h2
      rcases List.mem_append.1 h1 with ha | hb
      · exact (h.disjointIdx key k₂ i (fun he => hk2 he.symm) ha) h2
      · simp at hb
        exact absurd (h.bounded _ _ h2) (by omega)
    · rw [if_neg hk1] at h1
      rw [if_pos hk2] at h2
      rcases List.mem_append.1 h2 with ha | hb
      · exact (h.disjointIdx key k₁ i (fun he => hk1 he.symm) ha) h1
      · simp at hb
        exact absurd (h.bounded _ _ h1) (by omega)
    · rw [if_neg hk1] at h1
      rw [if_neg hk2] at h2
      exact h.disjointIdx _ _ _ hne h1 h2

theorem popFront_of_nil (mm : Multimap K V) (key : K) (h : mm.m key = []) :
    mm.popFront key = (none, mm) := by
  simp only [Multimap.popFront, h]

theorem popFront_of_cons (mm : Multimap K V) (key : K) (i : Nat) (rest : List Nat)
    (h : mm.m key = i :: rest) :
    mm.popFront key =
      (mm.items.getD i none,
       { items := mm.items.set i none
         m := fun k => if k = key then rest else mm.m k }) := by
  simp only [Multimap.popFront, h]

theorem popFront_fst (mm : Multimap K V) (key : K) (h : mm.Inv) :
    (mm.popFront key).1 = (mm.toQueue key).head? := by
  cases hm : mm.m key with
  | nil =>
    rw [popFront_of_nil mm key hm]
    simp [Multimap.toQueue, hm]
  | cons i rest =>
    rw [popFront_of_cons mm key i rest hm]
    have hi : i ∈ mm.m key := by rw [hm]; exact List.mem_cons_self _ _
    obtain ⟨v, hv⟩ := Option.isSome_iff_exists.1 (h.filled key i hi)
    show mm.items.getD i none = (mm.toQueue key).head?
    unfold Multimap.toQueue
    rw [hm, hv]
    have hv2 : mm.items[i]?.getD none = some v := by
      rw [← List.getD_eq_getElem?_getD]
      exact hv
    simp [List.filterMap_cons, hv2]

theorem toQueue_popFront_self (mm : Multimap K V) (key : K) (h : mm.Inv) :
    (mm.popFront key).2.toQueue key = (mm.toQueue key).tail := by
  cases hm : mm.m key with
  | nil =>
    rw [popFront_of_nil mm key hm]
    simp [Multimap.toQueue, hm]
  | cons i rest =>
    rw [popFront_of_cons mm key i rest hm]
    have hnd := h.nodupIdx key
    rw [hm] at hnd
    have hset : ∀ j ∈ rest, (mm.items.set i none).getD j none = mm.items.getD j none := by
      intro j hj
      exact getD_set_ne _ _ _ _ _ (fun hji => (List.nodup_cons.1 hnd).1 (hji ▸ hj))
    have hi : i ∈ mm.m key := by rw [hm]; exact List.mem_cons_self _ _
    obtain ⟨v, hv⟩ := Option.isSome_iff_exists.1 (h.filled key i hi)
    have hcongr : List.filterMap (fun j => (mm.items.set i none).getD j none) rest
        = List.filterMap (fun j => mm.items.getD j none) rest :=
      List.filterMap_congr hset
    show List.filterMap (fun j => (mm.items.set i none).getD j none)
          (if key = key then rest else mm.m key)
        = (mm.toQueue key).tail
    rw [if_pos (rfl : key = key), hcongr]
    unfold Multimap.toQueue
    rw [hm]
    have hv2 : mm.items[i]?.getD none = some v := by
      rw [← List.getD_eq_getElem?_getD]
      exact hv
    simp [List.filterMap_cons, hv2]

theorem toQueue_popFront_other (mm : Multimap K V) (key k : K) (h : mm.Inv)
    (hk : k ≠ key) : (mm.popFront key).2.toQueue k = mm.toQueue k := by
  cases hm : mm.m key with
  | nil => rw [popFront_of_nil mm key hm]
  | cons i rest =>
    rw [popFront_of_cons mm key i rest hm]
    have hi : i ∈ mm.m key := by rw [hm]; exact List.mem_cons_self _ _
    have hni : i ∉ mm.m k := h.disjointIdx key k i (fun he => hk he.symm) hi
    simp only [Multimap.toQueue, if_neg hk]
    refine List.filterMap_congr fun j hj => ?_
    have hji : j ≠ i := by
      intro hji
      rw [hji] at hj
      exact hni hj
    rw [getD_set_ne _ _ _ _ _ hji]

/-- The per-key queue view of a `pop_front` agrees with the spec-level
pop on every key. -/
theorem toQueue_popFront (mm : Multimap K V) (key : K) (h : mm.Inv) :
    (mm.popFront key).2.toQueue = (specPop mm.toQueue key).2 := by
  funext k
  simp only [specPop]
  by_cases hk : k = key
  · rw [if_pos hk, hk]
    exact toQueue_popFront_self mm key h
  · rw [if_neg hk]
    exact toQueue_popFront_other mm key k h hk

theorem inv_popFront (mm : Multimap K V) (key : K) (h : mm.Inv) :
    (mm.popFront key).2.Inv := by
  cases hm : mm.m key with
  | nil => rw [popFront_of_nil mm key hm]; exact h
  | cons i rest =>
    rw [popFront_of_cons mm key i rest hm]
    have hi : i ∈ mm.m key := by rw [hm]; exact List.mem_cons_self _ _
    have hnd := h.nodupIdx key
    rw [hm] at hnd
    have hmem : ∀ k j, j ∈ (if k = key then rest else mm.m k) → j ∈ mm.m k ∧ j ≠ i := by
      intro k j hj
      by_cases hk : k = key
      · rw [if_pos hk] at hj
        subst hk
        refine ⟨by rw [hm]; exact List.mem_cons_of_mem _ hj, ?_⟩
        intro hji
        rw [hji] at hj
        exact (List.nodup_cons.1 hnd).1 hj
      · rw [if_neg hk] at hj
        refine ⟨hj, ?_⟩
        intro hji
        rw [hji] at hj
        exact h.disjointIdx key k i (fun he => hk he.symm) hi hj
    constructor
    · intro k j hj
      have := (hmem k j hj).1
      simpa [List.length_set] using h.bounded k j this
    · intro k j hj
      obtain ⟨hj', hne⟩ := hmem k j hj
      rw [getD_set_ne _ _ _ _ _ hne]
      exact h.filled k j hj'
    · intro k
      show (if k = key then rest else mm.m k).Nodup
      by_cases hk : k = key
      · rw [if_pos hk]
        exact (List.nodup_cons.1 hnd).2
      · rw [if_neg hk]
        exact h.nodupIdx k
    · intro k₁ k₂ j hne h1 h2
      exact h.disjointIdx k₁ k₂ j hne (hmem _ _ h1).1 (hmem _ _ h2).1

theorem inv_foldl (ops : List (K × V)) (mm : Multimap K V) (h : mm.Inv) :
    (ops.foldl (fun mm p => mm.pushBack p.1 p.2) mm).Inv := by
  induction ops generalizing mm with
  | nil => exact h
  | cons p rest ih => exact ih _ (inv_pushBack _ _ _ h)

theorem inv_build (ops : List (K × V)) : (Multimap.build ops).Inv :=
  inv_foldl ops _ inv_empty

theorem inv_runPops (mm : Multimap K V) (ks : List K) (h : mm.Inv) :
    (mm.runPops ks).2.Inv := by
  induction ks generalizing mm with
  | nil => exact h
  | cons k ks ih => exact ih _ (inv_popFront mm k h)

theorem toQueue_foldl (ops : List (K × V)) (mm : Multimap K V) (h : mm.Inv) (k : K) :
    (ops.foldl (fun mm p => mm.pushBack p.1 p.2) mm).toQueue k
      = mm.toQueue k ++ specQueues ops k := by
  induction ops generalizing mm with
  | nil => simp [specQueues]
  | cons p rest ih =>
    simp only [List.foldl_cons, specQueues]
    rw [ih _ (inv_pushBack _ _ _ h), toQueue_pushBack _ _ _ h.bounded k]
    by_cases hk : k = p.1
    · rw [if_pos hk, if_pos hk.symm]
      simp
    · rw [if_neg hk, if_neg (fun he => hk he.symm)]

theorem toQueue_build (ops : List (K × V)) (k : K) :
    (Multimap.build ops).toQueue k = specQueues ops k := by
  have h := toQueue_foldl ops Multimap.empty inv_empty k
  simpa [Multimap.build, Multimap.toQueue, Multimap.empty] using h

theorem toQueue_build_eq (ops : List (K × V)) :
    (Multimap.build ops).toQueue = specQueues ops :=
  funext (toQueue_build ops)

/-- Refinement: a run of `pop_front`s on the concrete multimap produces
exactly the results of the corresponding run on the per-key queues. -/
theorem runPops_spec (mm : Multimap K V) (ks : List K) (h : mm.Inv) :
    (mm.runPops ks).1 = (specRun mm.toQueue ks).1
      ∧ (mm.runPops ks).2.toQueue = (specRun mm.toQueue ks).2 := by
  induction ks generalizing mm with
  | nil => exact ⟨rfl, rfl⟩
  | cons k ks ih =>
    obtain ⟨ih1, ih2⟩ := ih (mm.popFront k).2 (inv_popFront mm k h)
    constructor
    · simp only [Multimap.runPops, specRun]
      rw [popFront_fst mm k h, ih1, toQueue_popFront mm k h]
      rfl
    · simp only [Multimap.runPops, specRun]
      rw [ih2, toQueue_popFront mm k h]

theorem mem_specQueues (ops : List (K × V)) (k : K) (v : V)
    (h : v ∈ specQueues ops k) : (k, v) ∈ ops := by
  induction ops with
  | nil => simp [specQueues] at h
  | cons p rest ih =>
    simp only [specQueues] at h
    by_cases hk : p.1 = k
    · rw [if_pos hk] at h
      rcases List.mem_cons.1 h with h1 | h2
      · cases p with
        | mk a b =>
          simp only at hk
          rw [hk, h1]
          exact List.mem_cons_self _ _
      · exact List.mem_cons_of_mem _ (ih h2)
    · rw [if_neg hk] at h
      exact List.mem_cons_of_mem _ (ih h)

theorem specRun_result_mem (ks : List K) (q : K → List V) (i : Nat) (v : V)
    (h : (specRun q ks).1[i]? = some (some v)) :
    ∃ k, ks[i]? = some k ∧ v ∈ q k := by
  induction ks generalizing q i with
  | nil => simp [specRun] at h
  | cons k ks ih =>
    cases i with
    | zero =>
      refine ⟨k, by simp, ?_⟩
      simp only [specRun, List.getElem?_cons_zero, Option.some.injEq] at h
      simp only [specPop] at h
      exact List.mem_of_mem_head? (Option.mem_def.2 h)
    | succ j =>
      simp only [specRun, List.getElem?_cons_succ] at h
      obtain ⟨k', hk', hv⟩ := ih (specPop q k).2 j h
      refine ⟨k', by simpa using hk', ?_⟩
      by_cases he : k' = k
      · rw [he] at hv ⊢
        simp only [specPop, if_pos rfl] at hv
        exact List.mem_of_mem_tail hv
      · simpa [specPop, he] using hv

theorem specQueues_append (a b : List (K × V)) (k : K) :
    specQueues (a ++ b) k = specQueues a k ++ specQueues b k := by
  induction a with
  | nil => simp [specQueues]
  | cons p rest ih =>
    show specQueues (p :: (rest ++ b)) k = specQueues (p :: rest) k ++ specQueues b k
    simp only [specQueues, ih]
    by_cases hk : p.1 = k
    · rw [if_pos hk, if_pos hk]
      rfl
    · rw [if_neg hk, if_neg hk]

theorem specQueues_nil_of (a : List (K × V)) (k : K) (h : ∀ p ∈ a, p.1 ≠ k) :
    specQueues a k = [] := by
  induction a with
  | nil => rfl
  | cons p rest ih =>
    simp only [specQueues]
    rw [if_neg (h p (List.mem_cons_self _ _))]
    exact ih fun q hq => h q (List.mem_cons_of_mem _ hq)

/-- C2: on the keyed multimap, pushing `v1` then `v2` under key `K0`
(with arbitrary interleaved pushes under other keys) makes the first two
`pop_front K0` calls return `v1` then `v2`; a run of pops on any
push-built multimap produces exactly the results of the per-key FIFO
queues; a pop never returns a value pushed under a different key; and a
pop for a key with no unconsumed value returns `none`. -/
theorem pop_front_fifo (K0 v1 v2 : Nat) (pre mid post ops : List (Nat × Nat))
    (ks : List Nat) (i v k : Nat)
    (hpre : ∀ p ∈ pre, p.1 ≠ K0) (hmid : ∀ p ∈ mid, p.1 ≠ K0)
    (hpost : ∀ p ∈ post, p.1 ≠ K0) :
    ((Multimap.build (pre ++ (K0, v1) :: mid ++ (K0, v2) :: post)).runPops
        [K0, K0]).1 = [some v1, some v2]
    ∧ ((Multimap.build ops).runPops ks).1 = (specRun (specQueues ops) ks).1
    ∧ (((Multimap.build ops).runPops ks).1[i]? = some (some v) →
        ∃ k', ks[i]? = some k' ∧ (k', v) ∈ ops)
    ∧ (((Multimap.build ops).runPops ks).2.toQueue k = [] →
        (((Multimap.build ops).runPops ks).2.popFront k).1 = none) := by
  have hrefine : ∀ (os : List (Nat × Nat)) (qs : List Nat),
      ((Multimap.build os).runPops qs).1 = (specRun (specQueues os) qs).1 := by
    intro os qs
    have h := (runPops_spec (Multimap.build os) qs (inv_build os)).1
    rwa [toQueue_build_eq] at h
  refine ⟨?_, hrefine ops ks, ?_, ?_⟩
  · rw [hrefine]
    have hq : specQueues (pre ++ (K0, v1) :: mid ++ (K0, v2) :: post) K0
        = [v1, v2] := by
      simp [specQueues_append, specQueues, specQueues_nil_of pre K0 hpre,
            specQueues_nil_of mid K0 hmid, specQueues_nil_of post K0 hpost]
    simp only [specRun, specPop]
    rw [hq]
    simp
  · intro hres
    rw [hrefine] at hres
    obtain ⟨k', hk', hv⟩ := specRun_result_mem ks (specQueues ops) i v hres
    exact ⟨k', hk', mem_specQueues ops k' v hv⟩
  · intro hempty
    rw [popFront_fst _ _ (inv_runPops _ _ (inv_build ops)), hempty]
    rfl

theorem itemsList_pushBack (mm : Multimap K V) (k : K) (v : V) :
    (mm.pushBack k v).itemsList = mm.itemsList ++ [v] := by
  simp [Multimap.itemsList, Multimap.pushBack]

/-- Witness for `pop_front_fifo` at a concrete push/pop history. -/
theorem pop_front_fifo_witness :
    (∀ p ∈ [((1 : Nat), (10 : Nat))], p.1 ≠ 0)
    ∧ ((Multimap.build ([(1, 10)] ++ (0, 5) :: [(2, 20)] ++ (0, 6) :: [])).runPops
        [0, 0]).1 = [some 5, some 6] :=
  ⟨by decide,
   (pop_front_fifo 0 5 6 [(1, 10)] [(2, 20)] [] [(0, 5), (1, 7)] [0, 1, 0] 1 7 0
      (by decide) (by decide) (by decide)).1⟩

theorem updateChildrenGo_spec (children : List AnyElement)
    (old acc : Multimap Nat InstantiatedComponent)
    (accL : List (Nat × InstantiatedComponent)) (n : Nat)
    (hold : old.Inv) (hacc : acc.Inv)
    (hitems : acc.itemsList = accL.map Prod.snd)
    (hqueue : ∀ k, acc.toQueue k = (accL.filter (fun p => p.1 = k)).map Prod.snd) :
    (updateChildrenGo children old acc n).1.itemsList
        = (accL ++ (reconcileSpec children old.toQueue n).1).map Prod.snd
    ∧ (∀ k, (updateChildrenGo children old acc n).1.toQueue k
        = ((accL ++ (reconcileSpec children old.toQueue n).1).filter
            (fun p => p.1 = k)).map Prod.snd)
    ∧ (updateChildrenGo children old acc n).2
        = (reconcileSpec children old.toQueue n).2 := by
  induction children generalizing old acc accL n with
  | nil =>
    refine ⟨?_, ?_, rfl⟩
    · simpa [updateChildrenGo, reconcileSpec] using hitems
    · intro k
      simpa [updateChildrenGo, reconcileSpec] using hqueue k
  | cons child rest ih =>
    have hpop : (old.popFront child.key).1 = (specPop old.toQueue child.key).1 :=
      popFront_fst old child.key hold
    have hq' : (old.popFront child.key).2.toQueue = (specPop old.toQueue child.key).2 :=
      toQueue_popFront old child.key hold
    -- the component chosen by the concrete loop and by the spec coincide
    set c : InstantiatedComponent × Nat :=
      (match (old.popFront child.key).1 with
        | some comp =>
            if comp.typeId = child.typeId then (comp, n)
            else (InstantiatedComponent.create child n, n + 1)
        | none => (InstantiatedComponent.create child n, n + 1)) with hc
    have hstep : updateChildrenGo (child :: rest) old acc n
        = updateChildrenGo rest (old.popFront child.key).2
            (acc.pushBack child.key (c.1.updateProps child.props)) c.2 := by
      rw [hc]
      rfl
    have hspecStep : reconcileSpec (child :: rest) old.toQueue n
        = ((child.key, c.1.updateProps child.props)
              :: (reconcileSpec rest (specPop old.toQueue child.key).2 c.2).1,
           (reconcileSpec rest (specPop old.toQueue child.key).2 c.2).2) := by
      rw [hc, hpop]
      rfl
    have hacc' : (acc.pushBack child.key (c.1.updateProps child.props)).Inv :=
      inv_pushBack _ _ _ hacc
    have hitems' : (acc.pushBack child.key (c.1.updateProps child.props)).itemsList
        = (accL ++ [(child.key, c.1.updateProps child.props)]).map Prod.snd := by
      rw [itemsList_pushBack, hitems]
      simp
    have hqueue' : ∀ k,
        (acc.pushBack child.key (c.1.updateProps child.props)).toQueue k
        = ((accL ++ [(child.key, c.1.updateProps child.props)]).filter
            (fun p => p.1 = k)).map Prod.snd := by
      intro k
      rw [toQueue_pushBack _ _ _ hacc.bounded k, List.filter_append, List.map_append,
        ← hqueue k]
      by_cases hk : k = child.key
      · rw [if_pos hk]
        subst hk
        simp
      · rw [if_neg hk]
        have : (fun p => decide (p.1 = k)) (child.key, c.1.updateProps child.props)
            = false := by
          simp
          exact fun he => hk he.symm
        simp [List.filter_cons, this]
    obtain ⟨ih1, ih2, ih3⟩ := ih (old.popFront child.key).2
      (acc.pushBack child.key (c.1.updateProps child.props))
      (accL ++ [(child.key, c.1.updateProps child.props)]) c.2
      (inv_popFront old child.key hold) hacc' hitems' hqueue'
    rw [hq'] at ih1 ih2 ih3
    refine ⟨?_, ?_, ?_⟩
    · rw [hstep, ih1, hspecStep]
      simp
    · intro k
      rw [hstep, ih2 k, hspecStep]
      simp
    · rw [hstep, ih3, hspecStep]

/-- C1: `update_children` refines the spec-level reconcile: processed in
list order, each descriptor pops the first unconsumed old instance under
its key, reuses it exactly when the type identities match (otherwise the
popped mismatch is discarded and a fresh instance is created), updates
the instance with the descriptor's props and appends it under the
descriptor's key to the fresh collection that replaces the old one
(unconsumed old instances are dropped).  Consequently a head descriptor
whose key+type match the first queued old instance keeps that very
instance (identity and state), while a type mismatch or an absent key
yields a freshly created instance. -/
theorem update_children_reconciles (children : List AnyElement)
    (oldOps : List (Nat × InstantiatedComponent)) (n : Nat) (k : Nat)
    (d : AnyElement) (c : InstantiatedComponent)
    (tail : List InstantiatedComponent) :
    (update_children children (Multimap.build oldOps) n).1.itemsList
        = (reconcileSpec children (specQueues oldOps) n).1.map Prod.snd
    ∧ (update_children children (Multimap.build oldOps) n).1.toQueue k
        = ((reconcileSpec children (specQueues oldOps) n).1.filter
            (fun p => p.1 = k)).map Prod.snd
    ∧ (update_children children (Multimap.build oldOps) n).2
        = (reconcileSpec children (specQueues oldOps) n).2
    ∧ (specQueues oldOps d.key = c :: tail → c.typeId = d.typeId →
        (update_children (d :: children) (Multimap.build oldOps) n).1.itemsList.head?
          = some (c.updateProps d.props))
    ∧ (specQueues oldOps d.key = c :: tail → ¬c.typeId = d.typeId →
        (update_children (d :: children) (Multimap.build oldOps) n).1.itemsList.head?
          = some ((InstantiatedComponent.create d n).updateProps d.props))
    ∧ (specQueues oldOps d.key = [] →
        (update_children (d :: children) (Multimap.build oldOps) n).1.itemsList.head?
          = some ((InstantiatedComponent.create d n).updateProps d.props)) := by
  have main : ∀ (cs : List AnyElement) (m : Nat),
      (update_children cs (Multimap.build oldOps) m).1.itemsList
          = (reconcileSpec cs (specQueues oldOps) m).1.map Prod.snd
      ∧ (∀ k', (update_children cs (Multimap.build oldOps) m).1.toQueue k'
          = ((reconcileSpec cs (specQueues oldOps) m).1.filter
              (fun p => p.1 = k')).map Prod.snd)
      ∧ (update_children cs (Multimap.build oldOps) m).2
          = (reconcileSpec cs (specQueues oldOps) m).2 := by
    intro cs m
    have h := updateChildrenGo_spec cs (Multimap.build oldOps) Multimap.empty [] m
      (inv_build oldOps) inv_empty rfl (fun k' => rfl)
    rw [toQueue_build_eq] at h
    simpa [update_children] using h
  refine ⟨(main children n).1, (main children n).2.1 k, (main children n).2.2,
    ?_, ?_, ?_⟩
  · intro hqd htype
    rw [(main (d :: children) n).1]
    have : (specPop (specQueues oldOps) d.key).1 = some c := by
      simp [specPop, hqd]
    simp [reconcileSpec, this, htype]
  · intro hqd htype
    rw [(main (d :: children) n).1]
    have : (specPop (specQueues oldOps) d.key).1 = some c := by
      simp [specPop, hqd]
    simp [reconcileSpec, this, htype]
  · intro hqd
    rw [(main (d :: children) n).1]
    have : (specPop (specQueues oldOps) d.key).1 = none := by
      simp [specPop, hqd]
    simp [reconcileSpec, this]

/-- Witness for `update_children_reconciles`: one old instance under
key 0 with type 7; a descriptor with the same key and type reuses it
(same identity 100, same state 3) with the new props 55. -/
theorem update_children_reconciles_witness :
    specQueues [((0 : Nat), (⟨0, 7, 100, 3, 9⟩ : InstantiatedComponent)),
        ((1 : Nat), (⟨1, 8, 101, 4, 10⟩ : InstantiatedComponent))] 0
      = (⟨0, 7, 100, 3, 9⟩ : InstantiatedComponent) :: []
    ∧ (update_children [⟨0, 7, 55⟩]
        (Multimap.build [((0 : Nat), (⟨0, 7, 100, 3, 9⟩ : InstantiatedComponent)),
          ((1 : Nat), (⟨1, 8, 101, 4, 10⟩ : InstantiatedComponent))])
        200).1.itemsList.head?
      = some (InstantiatedComponent.updateProps ⟨0, 7, 100, 3, 9⟩ 55) :=
  ⟨by decide,
   (update_children_reconciles []
      [((0 : Nat), (⟨0, 7, 100, 3, 9⟩ : InstantiatedComponent)),
       ((1 : Nat), (⟨1, 8, 101, 4, 10⟩ : InstantiatedComponent))] 200 0
      ⟨0, 7, 55⟩ ⟨0, 7, 100, 3, 9⟩ []).2.2.2.1 (by decide) (by decide)⟩

theorem getElem?_append_length {α : Type} (l : List α) (a : α) :
    (l ++ [a])[l.length]? = some a := by
  induction l with
  | nil => rfl
  | cons b t ih =>
    simp only [List.cons_append, List.length_cons, List.getElem?_cons_succ]
    exact ih

/-- C3: use_hook is positional.  The cursor is reset to zero by
`Hooks::new`; on the first update the call at cursor N appends the
freshly initialised slot as slot N and returns it; on later updates the
call selects the existing slot N without invoking the initialiser
(the result does not depend on it); and the call faults exactly when no
slot exists at the cursor or the selected slot's stored type differs
from the expected one. -/
theorem use_hook_positional (h : HooksState) (tag init init1 init2 : Nat)
    (l : List HookSlot) (b : Bool) (s : HookSlot) :
    (Hooks.new l b).hook_index = 0
    ∧ (h.first_update = true → h.hooks.length = h.hook_index →
        use_hook h tag init
            = .ok (init, ⟨h.hooks ++ [⟨tag, init⟩], true, h.hook_index + 1⟩)
          ∧ (h.hooks ++ [⟨tag, init⟩])[h.hook_index]? = some ⟨tag, init⟩)
    ∧ (h.first_update = false → use_hook h tag init1 = use_hook h tag init2)
    ∧ (h.first_update = false → h.hooks[h.hook_index]? = some s → s.tag = tag →
        use_hook h tag init = .ok (s.val, ⟨h.hooks, false, h.hook_index + 1⟩))
    ∧ ((∃ e, use_hook h tag init = Except.error e) ↔
        ((if h.first_update then h.hooks ++ [⟨tag, init⟩]
            else h.hooks)[h.hook_index]? = none
         ∨ ∃ s', (if h.first_update then h.hooks ++ [⟨tag, init⟩]
            else h.hooks)[h.hook_index]? = some s' ∧ s'.tag ≠ tag)) := by
  refine ⟨rfl, ?_, ?_, ?_, ?_⟩
  · intro h1 h2
    have hget : (h.hooks ++ [(⟨tag, init⟩ : HookSlot)])[h.hook_index]?
        = some ⟨tag, init⟩ := by
      rw [← h2]
      exact getElem?_append_length _ _
    constructor
    · simp [use_hook, h1, hget]
    · exact hget
  · intro h1
    simp [use_hook, h1]
  · intro h1 hs htag
    simp [use_hook, h1, hs, htag]
  · cases heff : (if h.first_update then h.hooks ++ [⟨tag, init⟩]
        else h.hooks)[h.hook_index]? with
    | none => simp [use_hook, heff]
    | some s' =>
      by_cases ht : s'.tag = tag
      · simp [use_hook, heff, ht]
      · simp [use_hook, heff, ht]

/-- Witness for `use_hook_positional`: a second-update call selecting
an existing slot of the matching type. -/
theorem use_hook_positional_witness :
    (⟨[⟨5, 77⟩], false, 0⟩ : HooksState).first_update = false
    ∧ use_hook ⟨[⟨5, 77⟩], false, 0⟩ 5 99
        = .ok (77, ⟨[⟨5, 77⟩], false, 1⟩) :=
  ⟨by decide,
   (use_hook_positional ⟨[⟨5, 77⟩], false, 0⟩ 5 99 0 0 [] true ⟨5, 77⟩).2.2.2.1
     (by decide) (by decide) (by decide)⟩

/-- C5: with the write lock available, `poll_change` reports ready
exactly when the dirty flag is set, clearing it in that case (so the
next poll is pending again), and otherwise registers the current waker
and reports pending. -/
theorem poll_change_ready_iff_dirty (sv : StateValue) (w w' : Nat) :
    ((poll_change false sv w).1 = sv.is_changed)
    ∧ (sv.is_changed = true →
        poll_change false sv w = (true, { sv with is_changed := false }))
    ∧ (sv.is_changed = false →
        poll_change false sv w = (false, { sv with waker := some w }))
    ∧ (sv.is_changed = true →
        poll_change false (poll_change false sv w).2 w'
          = (false, { sv with is_changed := false, waker := some w' })) := by
  refine ⟨?_, ?_, ?_, ?_⟩
  · cases hc : sv.is_changed <;> simp [poll_change, hc]
  · intro hc
    simp [poll_change, hc]
  · intro hc
    simp [poll_change, hc]
  · intro hc
    simp [poll_change, hc]

/-- Witness for `poll_change_ready_iff_dirty`: one mutation is observed
exactly once. -/
theorem poll_change_ready_iff_dirty_witness :
    (⟨4, some 9, true⟩ : StateValue).is_changed = true
    ∧ poll_change false (poll_change false ⟨4, some 9, true⟩ 1).2 2
        = (false, ⟨4, some 2, false⟩) :=
  ⟨by decide, (poll_change_ready_iff_dirty ⟨4, some 9, true⟩ 1 2).2.2.2 (by decide)⟩

theorem applyAccesses_spec (ops : List (Option (Nat → Nat))) (r : StateMutRef) :
    (applyAccesses r ops).inner.waker = r.inner.waker
    ∧ (applyAccesses r ops).inner.is_changed = r.inner.is_changed
    ∧ (applyAccesses r ops).is_deref_mut = (r.is_deref_mut || hasWrite ops)
    ∧ (hasWrite ops = false → applyAccesses r ops = r) := by
  induction ops generalizing r with
  | nil => simp [applyAccesses, hasWrite]
  | cons op rest ih =>
    cases op with
    | none =>
      have h := ih r
      refine ⟨h.1, h.2.1, ?_, ?_⟩
      · rw [show applyAccesses r (none :: rest) = applyAccesses r rest from rfl,
          h.2.2.1]
        simp [hasWrite]
      · intro hw
        simp only [hasWrite, List.any_cons, Option.isSome_none, Bool.false_or] at hw
        exact h.2.2.2 hw
    | some f =>
      have h := ih ⟨{ r.inner with value := f r.inner.value }, true⟩
      refine ⟨h.1, h.2.1, ?_, ?_⟩
      · rw [show applyAccesses r (some f :: rest)
            = applyAccesses ⟨{ r.inner with value := f r.inner.value }, true⟩ rest
          from rfl, h.2.2.1]
        simp [hasWrite]
      · intro hw
        simp [hasWrite] at hw

/-- C4: dropping a mutable view marks the cell dirty and wakes the
registered waiter exactly once (taking the waker) if and only if the
view was dereferenced mutably during its lifetime; a view dropped
without any mutable dereference leaves the cell — dirty flag included —
untouched and wakes nobody. -/
theorem state_mut_ref_drop (sv : StateValue) (ops : List (Option (Nat → Nat))) :
    (hasWrite ops = true →
      (dropMutRef (applyAccesses (mkMutRef sv) ops)).1.is_changed = true
      ∧ (dropMutRef (applyAccesses (mkMutRef sv) ops)).1.waker = none
      ∧ (dropMutRef (applyAccesses (mkMutRef sv) ops)).2 = sv.waker.toList)
    ∧ (hasWrite ops = false →
      dropMutRef (applyAccesses (mkMutRef sv) ops) = (sv, [])) := by
  obtain ⟨hwaker, hchanged, hflag, hid⟩ := applyAccesses_spec ops (mkMutRef sv)
  constructor
  · intro hw
    have hf : (applyAccesses (mkMutRef sv) ops).is_deref_mut = true := by
      rw [hflag, hw]
      simp [mkMutRef]
    refine ⟨?_, ?_, ?_⟩
    · simp [dropMutRef, hf]
    · simp [dropMutRef, hf]
    · simp only [dropMutRef, hf, if_pos]
      rw [hwaker]
      rfl
  · intro hw
    have hr : applyAccesses (mkMutRef sv) ops = mkMutRef sv := hid hw
    rw [hr]
    simp [dropMutRef, mkMutRef]

/-- Witness for `state_mut_ref_drop`: one write dirties and wakes; a
read-only view leaves everything untouched. -/
theorem state_mut_ref_drop_witness :
    hasWrite [some (fun v => v + 1)] = true
    ∧ (dropMutRef (applyAccesses (mkMutRef ⟨4, some 9, false⟩)
          [some (fun v => v + 1)])).1.is_changed = true
    ∧ (dropMutRef (applyAccesses (mkMutRef ⟨4, some 9, false⟩)
          [some (fun v => v + 1)])).1.waker = none
    ∧ (dropMutRef (applyAccesses (mkMutRef ⟨4, some 9, false⟩)
          [some (fun v => v + 1)])).2 = (⟨4, some 9, false⟩ : StateValue).waker.toList :=
  ⟨rfl,
   ((state_mut_ref_drop ⟨4, some 9, false⟩ [some (fun v => v + 1)]).1 rfl).1,
   ((state_mut_ref_drop ⟨4, some 9, false⟩ [some (fun v => v + 1)]).1 rfl).2.1,
   ((state_mut_ref_drop ⟨4, some 9, false⟩ [some (fun v => v + 1)]).1 rfl).2.2⟩

/-- C6 counterexample: with a read-only entry of the looked-up type on
top of a mutable entry of the same type, the mutable lookup does not
stop at the nearest (read-only) match — it falls through and returns
the deeper mutable entry's value, where the claim requires `none`. -/
theorem get_context_mut_counterexample :
    (Context.Ref 0 7).tag = 0
    ∧ Context.downcast_mut (Context.Ref 0 7) 0 = none
    ∧ get_context_mut [Context.Ref 0 7, Context.Mut 0 3] 0 = some 3 := by
  decide

/-- C6 (amended): `get_context_mut` scans strictly top-to-bottom and
returns the value of the first entry that both matches the type and can
be borrowed mutably; a read-only matching entry is skipped (the scan
falls through past it), and the lookup yields `none` only when no entry
matches mutably. -/
theorem get_context_mut_first_mutable (stack rest : List Context) (tag : Nat)
    (c : Context) :
    get_context_mut stack tag
        = (stack.find? (fun e => e.mutMatches tag)).map Context.val
    ∧ (c.downcast_mut tag = none →
        get_context_mut (c :: rest) tag = get_context_mut rest tag) := by
  constructor
  · induction stack with
    | nil => rfl
    | cons e es ih =>
      cases e with
      | Ref t v =>
        simp only [get_context_mut, Context.downcast_mut, List.find?,
          Context.mutMatches, Bool.false_eq_true, cond_false]
        exact ih
      | Mut t v =>
        by_cases ht : t = tag
        · simp [get_context_mut, Context.downcast_mut, List.find?,
            Context.mutMatches, ht, Context.val]
        · simp only [get_context_mut, Context.downcast_mut, if_neg ht]
          have hfind : List.find? (fun e => e.mutMatches tag) (Context.Mut t v :: es)
              = List.find? (fun e => e.mutMatches tag) es := by
            rw [List.find?_cons_of_neg]
            simp [Context.mutMatches, ht]
          rw [hfind]
          exact ih
      | Owned t v =>
        by_cases ht : t = tag
        · simp [get_context_mut, Context.downcast_mut, List.find?,
            Context.mutMatches, ht, Context.val]
        · simp only [get_context_mut, Context.downcast_mut, if_neg ht]
          have hfind : List.find? (fun e => e.mutMatches tag) (Context.Owned t v :: es)
              = List.find? (fun e => e.mutMatches tag) es := by
            rw [List.find?_cons_of_neg]
            simp [Context.mutMatches, ht]
          rw [hfind]
          exact ih
  · intro hdc
    simp [get_context_mut, hdc]

/-- Witness for `get_context_mut_first_mutable` at the counterexample
stack: the skipped read-only entry makes the lookup return the deeper
mutable match. -/
theorem get_context_mut_first_mutable_witness :
    Context.downcast_mut (Context.Ref 0 7) 0 = none
    ∧ get_context_mut [Context.Ref 0 7, Context.Mut 0 3] 0
        = get_context_mut [Context.Mut 0 3] 0 :=
  ⟨by decide,
   (get_context_mut_first_mutable [] [Context.Mut 0 3] 0 (Context.Ref 0 7)).2
     (by decide)⟩

/-- C7 counterexample: a body that exits abruptly leaves the pushed
entry on the stack — the pop does not occur, so the depth after the
call is one more than before (the claim requires equality). -/
theorem with_context_counterexample :
    (with_context [] (some (Context.Owned 0 5)) (fun s => (s, true))).1
        = [Context.Owned 0 5]
    ∧ ([Context.Owned 0 5].length ≠ ([] : List Context).length) := by
  constructor
  · rfl
  · decide

/-- C7 (amended): with a supplied value, `with_context` pushes exactly
one entry before the body and pops exactly one entry on the body's
normal exit, restoring the previous stack; the pushed value is
retrievable by type lookup inside the body, and is not retrievable
after return when its type occurs nowhere else in the stack; with no
supplied value the stack passes through unchanged.  If the body exits
abruptly, the pop does not occur. -/
theorem with_context_scoping (stack s' : List Context) (c : Context) (tg : Nat)
    (f : List Context → List Context × Bool) :
    (with_context stack none f = f stack)
    ∧ (f (c :: stack) = (c :: stack, false) →
        with_context stack (some c) f = (stack, false))
    ∧ (get_context (c :: stack) c.tag = some c.val)
    ∧ ((∀ e ∈ stack, e.tag ≠ tg) → get_context stack tg = none)
    ∧ (f (c :: stack) = (s', true) → with_context stack (some c) f = (s', true)) := by
  refine ⟨rfl, ?_, ?_, ?_, ?_⟩
  · intro hf
    simp [with_context, hf]
  · cases c with
    | Ref t v => simp [get_context, Context.downcast_ref, Context.tag, Context.val]
    | Mut t v => simp [get_context, Context.downcast_ref, Context.tag, Context.val]
    | Owned t v => simp [get_context, Context.downcast_ref, Context.tag, Context.val]
  · intro hnone
    induction stack with
    | nil => rfl
    | cons e es ih =>
      have he : e.downcast_ref tg = none := by
        have := hnone e (List.mem_cons_self _ _)
        cases e with
        | Ref t v => simp [Context.downcast_ref, Context.tag] at this ⊢; exact this
        | Mut t v => simp [Context.downcast_ref, Context.tag] at this ⊢; exact this
        | Owned t v => simp [Context.downcast_ref, Context.tag] at this ⊢; exact this
      simp only [get_context, he]
      exact ih fun e' he' => hnone e' (List.mem_cons_of_mem _ he')
  · intro hf
    simp [with_context, hf]

/-- Witness for `with_context_scoping`: a well-behaved body sees the
pushed entry and the stack is restored afterwards; the value's type is
unavailable outside. -/
theorem with_context_scoping_witness :
    ((fun s => (s, false)) ((Context.Owned 3 9) :: [Context.Mut 1 2])
        = (Context.Owned 3 9 :: [Context.Mut 1 2], false))
    ∧ with_context [Context.Mut 1 2] (some (Context.Owned 3 9))
        (fun s => (s, false)) = ([Context.Mut 1 2], false)
    ∧ get_context (Context.Owned 3 9 :: [Context.Mut 1 2])
        (Context.Owned 3 9).tag = some (Context.Owned 3 9).val
    ∧ get_context [Context.Mut 1 2] 3 = none :=
  ⟨rfl,
   (with_context_scoping [Context.Mut 1 2] [] (Context.Owned 3 9) 3
      (fun s => (s, false))).2.1 rfl,
   (with_context_scoping [Context.Mut 1 2] [] (Context.Owned 3 9) 3
      (fun s => (s, false))).2.2.1,
   (with_context_scoping [Context.Mut 1 2] [] (Context.Owned 3 9) 3
      (fun s => (s, false))).2.2.2.1 (by decide)⟩

/-- C9: an owned carrier releases its allocation exactly once when
dropped; borrowed and re-borrowed carriers never release anything; so a
family of one owned carrier plus any number of non-owning carriers over
the same value releases the allocation exactly once overall. -/
theorem any_props_release_once (a : Nat) (p : AnyProps) (fam : List AnyProps)
    (hfam : ∀ q ∈ fam, q.drop = false) :
    (AnyProps.owned a).dropCarrier = [a]
    ∧ (AnyProps.borrowed a).dropCarrier = []
    ∧ (AnyProps.borrow p).dropCarrier = []
    ∧ (AnyProps.borrow p).drop = false
    ∧ ((AnyProps.owned a :: fam).map AnyProps.dropCarrier).flatten = [a]
    ∧ (((AnyProps.owned a :: fam).map AnyProps.dropCarrier).flatten).count a = 1 := by
  have hjoin : (fam.map AnyProps.dropCarrier).flatten = [] := by
    induction fam with
    | nil => rfl
    | cons q rest ih =>
      simp only [List.map_cons, List.flatten]
      rw [show q.dropCarrier = [] from by
            simp [AnyProps.dropCarrier, hfam q (List.mem_cons_self _ _)],
        ih fun q' hq' => hfam q' (List.mem_cons_of_mem _ hq')]
      rfl
  have hmain : ((AnyProps.owned a :: fam).map AnyProps.dropCarrier).flatten = [a] := by
    simp only [List.map_cons, List.flatten, hjoin]
    simp [AnyProps.owned, AnyProps.dropCarrier]
  refine ⟨rfl, rfl, rfl, rfl, hmain, ?_⟩
  rw [hmain]
  simp

/-- Witness for `any_props_release_once`: an owner, a re-borrow and a
borrowed carrier over allocation 5 release it exactly once. -/
theorem any_props_release_once_witness :
    (∀ q ∈ [AnyProps.borrow (AnyProps.owned 5), AnyProps.borrowed 5], q.drop = false)
    ∧ ((AnyProps.owned 5
          :: [AnyProps.borrow (AnyProps.owned 5), AnyProps.borrowed 5]).map
          AnyProps.dropCarrier).flatten = [5] :=
  ⟨by decide,
   (any_props_release_once 5 (AnyProps.owned 5)
      [AnyProps.borrow (AnyProps.owned 5), AnyProps.borrowed 5]
      (by decide)).2.2.2.2.1⟩

theorem getD_of_length_le {α : Type} (l : List α) (i : Nat) (d : α)
    (h : l.length ≤ i) : l.getD i d = d := by
  induction l generalizing i with
  | nil => cases i <;> rfl
  | cons a t ih =>
    cases i with
    | zero => simp at h
    | succ j => exact ih j (by simpa using Nat.le_of_succ_le_succ h)

theorem getD_set_self {α : Type} (l : List α) (i : Nat) (a d : α)
    (h : i < l.length) : (l.set i a).getD i d = a := by
  induction l generalizing i with
  | nil => simp at h
  | cons b t ih =>
    cases i with
    | zero => rfl
    | succ j =>
      simp only [List.set_cons_succ, List.getD_cons_succ]
      exact ih j (by simpa using Nat.lt_of_succ_lt_succ h)

theorem retainWalk_spec (e : Event) (heap : List (Option TerminalEventsInner))
    (subs : List Nat) (hnd : subs.Nodup) :
    (retainWalk e heap subs).2.1
        = subs.filter (fun i => (heap.getD i none).isSome)
    ∧ (∀ i, i ∉ subs → (retainWalk e heap subs).1.getD i none = heap.getD i none)
    ∧ (∀ i q, i ∈ subs → heap.getD i none = some q →
        (retainWalk e heap subs).1.getD i none = some ⟨q.pending ++ [e], none⟩)
    ∧ (retainWalk e heap subs).2.2
        = subs.filterMap (fun i => (heap.getD i none).bind TerminalEventsInner.waker) := by
  induction subs generalizing heap with
  | nil => exact ⟨rfl, fun i _ => rfl, fun i q hi => absurd hi (List.not_mem_nil i), rfl⟩
  | cons idx rest ih =>
    have hndr : rest.Nodup := (List.nodup_cons.1 hnd).2
    have hidx : idx ∉ rest := (List.nodup_cons.1 hnd).1
    cases hq : heap.getD idx none with
    | none =>
      have hstep : retainWalk e heap (idx :: rest) = retainWalk e heap rest := by
        simp only [retainWalk, hq]
      obtain ⟨ih1, ih2, ih3, ih4⟩ := ih heap hndr
      refine ⟨?_, ?_, ?_, ?_⟩
      · rw [hstep, ih1]
        simp only [List.filter_cons]
        rw [hq]
        simp
      · intro i hi
        rw [hstep]
        exact ih2 i (fun hmem => hi (List.mem_cons_of_mem _ hmem))
      · intro i q hi hqi
        rcases List.mem_cons.1 hi with h1 | h2
        · rw [h1] at hqi
          rw [hqi] at hq
          exact absurd hq (by simp)
        · rw [hstep]
          exact ih3 i q h2 hqi
      · rw [hstep, ih4]
        simp only [List.filterMap_cons]
        rw [hq]
        rfl
    | some q =>
      have hlt : idx < heap.length := by
        by_contra hge
        rw [getD_of_length_le heap idx none (Nat.le_of_not_lt hge)] at hq
        exact absurd hq (by simp)
      have hstep : retainWalk e heap (idx :: rest)
          = ((retainWalk e (heap.set idx (some ⟨q.pending ++ [e], none⟩)) rest).1,
             idx :: (retainWalk e (heap.set idx (some ⟨q.pending ++ [e], none⟩)) rest).2.1,
             q.waker.toList
               ++ (retainWalk e (heap.set idx (some ⟨q.pending ++ [e], none⟩)) rest).2.2) := by
        simp only [retainWalk, hq]
      have halive : ∀ j,
          (((heap.set idx (some ⟨q.pending ++ [e], none⟩)).getD j none).isSome)
            = ((heap.getD j none).isSome) := by
        intro j
        by_cases hj : j = idx
        · subst hj
          rw [getD_set_self heap j _ none hlt, hq]
          rfl
        · rw [getD_set_ne heap idx j _ none hj]
      have hsame : ∀ j, j ≠ idx →
          (heap.set idx (some ⟨q.pending ++ [e], none⟩)).getD j none
            = heap.getD j none := by
        intro j hj
        exact getD_set_ne heap idx j _ none hj
      obtain ⟨ih1, ih2, ih3, ih4⟩ :=
        ih (heap.set idx (some ⟨q.pending ++ [e], none⟩)) hndr
      have hrestsame : ∀ j ∈ rest,
          (heap.set idx (some ⟨q.pending ++ [e], none⟩)).getD j none
            = heap.getD j none := by
        intro j hj
        exact hsame j (fun hji => hidx (hji ▸ hj))
      refine ⟨?_, ?_, ?_, ?_⟩
      · rw [hstep]
        have hfilters : rest.filter
              (fun i => (((heap.set idx (some ⟨q.pending ++ [e], none⟩)).getD i
                none)).isSome)
            = rest.filter (fun i => ((heap.getD i none)).isSome) :=
          List.filter_congr fun j _ => by rw [halive j]
        simp only [List.filter_cons]
        rw [hq, ih1, hfilters]
        simp
      · intro i hi
        have hne : i ≠ idx := fun hie => hi (hie ▸ List.mem_cons_self _ _)
        have hnr : i ∉ rest := fun hmem => hi (List.mem_cons_of_mem _ hmem)
        rw [hstep]
        show (retainWalk e (heap.set idx (some ⟨q.pending ++ [e], none⟩)) rest).1.getD
            i none = heap.getD i none
        rw [ih2 i hnr, hsame i hne]
      · intro i q' hi hqi
        rcases List.mem_cons.1 hi with h1 | h2
        · subst h1
          rw [hqi] at hq
          have hqq : q' = q := by
            injection hq
          subst hqq
          rw [hstep]
          show (retainWalk e (heap.set i (some ⟨q'.pending ++ [e], none⟩)) rest).1.getD
              i none = some ⟨q'.pending ++ [e], none⟩
          rw [ih2 i hidx, getD_set_self heap i _ none hlt]
        · have hne : i ≠ idx := fun hie => hidx (hie ▸ h2)
          rw [hstep]
          show (retainWalk e (heap.set idx (some ⟨q.pending ++ [e], none⟩)) rest).1.getD
              i none = some ⟨q'.pending ++ [e], none⟩
          refine ih3 i q' h2 ?_
          rw [hsame i hne]
          exact hqi
      · rw [hstep]
        show q.waker.toList
            ++ (retainWalk e (heap.set idx (some ⟨q.pending ++ [e], none⟩)) rest).2.2
          = (idx :: rest).filterMap
              (fun i => (heap.getD i none).bind TerminalEventsInner.waker)
        rw [ih4]
        have hfm : rest.filterMap
              (fun i => (((heap.set idx (some ⟨q.pending ++ [e], none⟩)).getD i
                none)).bind TerminalEventsInner.waker)
            = rest.filterMap
              (fun i => ((heap.getD i none)).bind TerminalEventsInner.waker) :=
          List.filterMap_congr fun j hj => by rw [hrestsame j hj]
        rw [hfm]
        simp only [List.filterMap_cons, hq, Option.some_bind]
        cases q.waker with
        | none => rfl
        | some w => rfl

/-- A dead arena slot stays dead through the dispatch walk. -/
theorem retainWalk_dead (e : Event) (heap : List (Option TerminalEventsInner))
    (subs : List Nat) (i : Nat) (h : heap.getD i none = none) :
    (retainWalk e heap subs).1.getD i none = none := by
  induction subs generalizing heap with
  | nil => exact h
  | cons idx rest ih =>
    cases hq : heap.getD idx none with
    | none =>
      have hstep : retainWalk e heap (idx :: rest) = retainWalk e heap rest := by
        simp only [retainWalk, hq]
      rw [hstep]
      exact ih heap h
    | some q =>
      have hne : i ≠ idx := by
        intro hie
        rw [hie, hq] at h
        exact absurd h (by simp)
      have hstep : (retainWalk e heap (idx :: rest)).1
          = (retainWalk e (heap.set idx (some ⟨q.pending ++ [e], none⟩)) rest).1 := by
        simp only [retainWalk, hq]
      rw [hstep]
      refine ih _ ?_
      rw [getD_set_ne heap idx i _ none hne]
      exact h

theorem dispatch_spec (t : Terminal) (e : Event) (hnd : t.subscribers.Nodup) :
    (t.dispatch e).1.subscribers
        = t.subscribers.filter (fun i => (t.heap.getD i none).isSome)
    ∧ (∀ i, i ∉ t.subscribers →
        (t.dispatch e).1.heap.getD i none = t.heap.getD i none)
    ∧ (∀ i q, i ∈ t.subscribers → t.heap.getD i none = some q →
        (t.dispatch e).1.heap.getD i none = some ⟨q.pending ++ [e], none⟩)
    ∧ (t.dispatch e).2
        = t.subscribers.filterMap
            (fun i => (t.heap.getD i none).bind TerminalEventsInner.waker) :=
  retainWalk_spec e t.heap t.subscribers hnd

theorem dispatch_received (t : Terminal) (e : Event) :
    (t.dispatch e).1.received_ctrl_c = t.received_ctrl_c := rfl

theorem dispatch_nodup (t : Terminal) (e : Event) (hnd : t.subscribers.Nodup) :
    (t.dispatch e).1.subscribers.Nodup := by
  rw [(dispatch_spec t e hnd).1]
  exact hnd.filter _

theorem dispatchAll_pending (es : List Event) (t : Terminal) (i : Nat)
    (q : TerminalEventsInner) (hnd : t.subscribers.Nodup)
    (hi : i ∈ t.subscribers) (hq : t.heap.getD i none = some q) :
    ∃ q', (t.dispatchAll es).heap.getD i none = some q'
      ∧ q'.pending = q.pending ++ es := by
  induction es generalizing t q with
  | nil => exact ⟨q, hq, by simp⟩
  | cons e es ih =>
    obtain ⟨hsubs, huntouched, happend, hwoken⟩ := dispatch_spec t e hnd
    have hq' : (t.dispatch e).1.heap.getD i none = some ⟨q.pending ++ [e], none⟩ :=
      happend i q hi hq
    have hi' : i ∈ (t.dispatch e).1.subscribers := by
      rw [hsubs]
      refine List.mem_filter.2 ⟨hi, ?_⟩
      rw [hq]
      rfl
    obtain ⟨q', hgq, hpend⟩ := ih (t.dispatch e).1 ⟨q.pending ++ [e], none⟩
      (dispatch_nodup t e hnd) hi' hq'
    refine ⟨q', hgq, ?_⟩
    rw [hpend]
    simp

/-- C8: on every dispatch, each live subscriber's queue gets exactly one
copy of the event appended and its registered waiter is taken and woken;
queues outside the subscriber list are untouched; dead weak references
are removed during the dispatch walk itself (dropping the strong owner
alone leaves the list unchanged); a subscriber created later starts with
an empty queue, so it never sees earlier events; and over a whole
dispatch sequence a live subscriber accumulates the events in arrival
order. -/
theorem event_dispatch_fanout (t : Terminal) (e : Event) (i j : Nat)
    (q : TerminalEventsInner) (es : List Event)
    (hnd : t.subscribers.Nodup) :
    (t.dispatch e).1.subscribers
        = t.subscribers.filter (fun i' => (t.heap.getD i' none).isSome)
    ∧ (i ∈ t.subscribers → t.heap.getD i none = some q →
        (t.dispatch e).1.heap.getD i none = some ⟨q.pending ++ [e], none⟩)
    ∧ (t.dispatch e).2
        = t.subscribers.filterMap
            (fun i' => (t.heap.getD i' none).bind TerminalEventsInner.waker)
    ∧ (j ∉ t.subscribers →
        (t.dispatch e).1.heap.getD j none = t.heap.getD j none)
    ∧ (t.events).2.heap.getD (t.events).1 none = some ⟨[], none⟩
    ∧ (i ∈ t.subscribers → t.heap.getD i none = some q →
        ∃ q', (t.dispatchAll es).heap.getD i none = some q'
          ∧ q'.pending = q.pending ++ es)
    ∧ (t.dropOwner j).subscribers = t.subscribers := by
  obtain ⟨hsubs, huntouched, happend, hwoken⟩ := dispatch_spec t e hnd
  refine ⟨hsubs, fun hi hq => happend i q hi hq, hwoken,
    fun hj => huntouched j hj, ?_, fun hi hq => dispatchAll_pending es t i q hnd hi hq,
    rfl⟩
  show (t.heap ++ [some (⟨[], none⟩ : TerminalEventsInner)]).getD t.heap.length none
      = some (⟨[], none⟩ : TerminalEventsInner)
  exact getD_append_self _ _ _

/-- Witness for `event_dispatch_fanout`: two live subscribers and one
dead one; the dispatched event reaches both live queues, the dead weak
reference is pruned, and both registered waiters are woken once. -/
theorem event_dispatch_fanout_witness :
    ([0, 1, 2] : List Nat).Nodup
    ∧ (Terminal.dispatch ⟨[some ⟨[], some 7⟩, none, some ⟨[Event.other 4], some 8⟩],
          [0, 1, 2], false⟩ (Event.other 9)).1.subscribers
        = [0, 2]
    ∧ (Terminal.dispatch ⟨[some ⟨[], some 7⟩, none, some ⟨[Event.other 4], some 8⟩],
          [0, 1, 2], false⟩ (Event.other 9)).2 = [7, 8] := by
  refine ⟨by decide, ?_, ?_⟩
  · rw [(event_dispatch_fanout ⟨[some ⟨[], some 7⟩, none, some ⟨[Event.other 4], some 8⟩],
        [0, 1, 2], false⟩ (Event.other 9) 0 1 ⟨[], some 7⟩ [] (by decide)).1]
    decide
  · rw [(event_dispatch_fanout ⟨[some ⟨[], some 7⟩, none, some ⟨[Event.other 4], some 8⟩],
        [0, 1, 2], false⟩ (Event.other 9) 0 1 ⟨[], some 7⟩ [] (by decide)).2.2.1]
    decide

theorem dispatch_preserves_clean (t : Terminal) (e : Event)
    (hnd : t.subscribers.Nodup)
    (hclean : ∀ i q, t.heap.getD i none = some q →
        ∀ ev ∈ q.pending, isCtrlC ev = false)
    (he : isCtrlC e = false) :
    ∀ i q', (t.dispatch e).1.heap.getD i none = some q' →
      ∀ ev ∈ q'.pending, isCtrlC ev = false := by
  intro i q' hq' ev hev
  obtain ⟨hsubs, huntouched, happend, hwoken⟩ := dispatch_spec t e hnd
  by_cases hi : i ∈ t.subscribers
  · cases hcase : t.heap.getD i none with
    | none =>
      rw [show (t.dispatch e).1.heap = (retainWalk e t.heap t.subscribers).1 from rfl]
        at hq'
      rw [retainWalk_dead e t.heap t.subscribers i hcase] at hq'
      exact absurd hq' (by simp)
    | some q0 =>
      rw [happend i q0 hi hcase] at hq'
      have hq'' : q' = ⟨q0.pending ++ [e], none⟩ := by
        injection hq' with h
        exact h.symm
      rw [hq''] at hev
      rcases List.mem_append.1 hev with h1 | h2
      · exact hclean i q0 hcase ev h1
      · simp only [List.mem_singleton] at h2
        rw [h2]
        exact he
  · rw [huntouched i hi] at hq'
    exact hclean i q' hq' ev hev

theorem wait_preserves_clean (stream : List (Except Unit Event)) (t : Terminal)
    (hnd : t.subscribers.Nodup)
    (hclean : ∀ i q, t.heap.getD i none = some q →
        ∀ ev ∈ q.pending, isCtrlC ev = false) :
    ∀ i q, (t.wait stream).heap.getD i none = some q →
      ∀ ev ∈ q.pending, isCtrlC ev = false := by
  induction stream generalizing t with
  | nil => exact hclean
  | cons x rest ih =>
    cases x with
    | error err => exact hclean
    | ok e =>
      cases hc : isCtrlC e with
      | true =>
        have : Terminal.wait t (.ok e :: rest) = { t with received_ctrl_c := true } := by
          simp [Terminal.wait, hc]
        rw [this]
        exact hclean
      | false =>
        have : Terminal.wait t (.ok e :: rest) = Terminal.wait (t.dispatch e).1 rest := by
          simp [Terminal.wait, hc]
        rw [this]
        exact ih (t.dispatch e).1 (dispatch_nodup t e hnd)
          (dispatch_preserves_clean t e hnd hclean hc)

theorem wait_flag (stream : List (Except Unit Event)) (t : Terminal) :
    (t.wait stream).received_ctrl_c = (t.received_ctrl_c || hasCtrlC stream) := by
  induction stream generalizing t with
  | nil => simp [Terminal.wait, hasCtrlC]
  | cons x rest ih =>
    cases x with
    | error err => simp [Terminal.wait, hasCtrlC]
    | ok e =>
      cases hc : isCtrlC e with
      | true => simp [Terminal.wait, hasCtrlC, hc]
      | false =>
        have hstep : Terminal.wait t (.ok e :: rest)
            = Terminal.wait (t.dispatch e).1 rest := by
          simp [Terminal.wait, hc]
        rw [hstep, ih, dispatch_received]
        simp [hasCtrlC, hc]

/-- C10: when the wait loop reads a Ctrl+C key event it sets the
received_ctrl_c flag and returns immediately, dispatching nothing (the
rest of the stream is not even read); every other event is dispatched
normally; the flag is set exactly when a Ctrl+C occurs before the
stream's end or first read error; and if no queue holds a Ctrl+C
initially, no subscriber queue ever holds one. -/
theorem ctrl_c_short_circuits (t : Terminal) (e : Event)
    (stream rest : List (Except Unit Event)) (i : Nat) (q : TerminalEventsInner)
    (hnd : t.subscribers.Nodup) :
    (isCtrlC e = true →
        Terminal.wait t (.ok e :: rest) = { t with received_ctrl_c := true })
    ∧ (isCtrlC e = false →
        Terminal.wait t (.ok e :: rest) = Terminal.wait (t.dispatch e).1 rest)
    ∧ ((t.wait stream).received_ctrl_c = (t.received_ctrl_c || hasCtrlC stream))
    ∧ ((∀ i' q', t.heap.getD i' none = some q' →
          ∀ ev ∈ q'.pending, isCtrlC ev = false) →
        (t.wait stream).heap.getD i none = some q →
          ∀ ev ∈ q.pending, isCtrlC ev = false) := by
  refine ⟨?_, ?_, wait_flag stream t, ?_⟩
  · intro hc
    simp [Terminal.wait, hc]
  · intro hc
    simp [Terminal.wait, hc]
  · intro hclean hq
    exact wait_preserves_clean stream t hnd hclean i q hq

/-- Witness for `ctrl_c_short_circuits`: a Ctrl+C key press sets the
flag and leaves the subscriber queue untouched with the remaining
stream unread. -/
theorem ctrl_c_short_circuits_witness :
    isCtrlC (Event.key (KeyCode.char 'c') ⟨true, false, false⟩) = true
    ∧ Terminal.wait ⟨[some ⟨[], some 7⟩], [0], false⟩
        [.ok (Event.key (KeyCode.char 'c') ⟨true, false, false⟩),
         .ok (Event.other 2)]
        = ⟨[some ⟨[], some 7⟩], [0], true⟩
    ∧ (Terminal.wait ⟨[some ⟨[], some 7⟩], [0], false⟩
        [.ok (Event.other 1),
         .ok (Event.key (KeyCode.char 'c') ⟨true, false, false⟩)]).received_ctrl_c
        = (false || hasCtrlC [.ok (Event.other 1),
            .ok (Event.key (KeyCode.char 'c') ⟨true, false, false⟩)]) :=
  ⟨by decide,
   (ctrl_c_short_circuits ⟨[some ⟨[], some 7⟩], [0], false⟩
      (Event.key (KeyCode.char 'c') ⟨true, false, false⟩)
      [] [.ok (Event.other 2)] 0 ⟨[], some 7⟩ (by decide)).1 (by decide),
   (ctrl_c_short_circuits ⟨[some ⟨[], some 7⟩], [0], false⟩
      (Event.key (KeyCode.char 'c') ⟨true, false, false⟩)
      [.ok (Event.other 1),
       .ok (Event.key (KeyCode.char 'c') ⟨true, false, false⟩)]
      [] 0 ⟨[], some 7⟩ (by decide)).2.2.1⟩

end RatatuiKit
